import Mathlib

/-
Verification of the result layer of the pest parsing library
(`src/pest/src/span.rs` and `src/pest/src/iterators/pair.rs`).

The input text (Rust `&str` / `Arc<str>`) is modelled as a `List Char`
together with byte offsets computed from `Char.utf8Size`, so that
character-boundary validity of offsets is represented faithfully.
Reference-counted shared handles (`Arc<str>`, `Rc<Vec<QueueableToken>>`)
are modelled as a value paired with an allocation identity `id : Nat`;
pointer equality (`Arc::ptr_eq`, `Rc::ptr_eq`) is identity of `id`.
Fallible code paths (out-of-bounds indexing, `unreachable!`) are
modelled with `Option`, `none` standing for the fatal outcome.
-/

set_option maxRecDepth 10000

/-- Total number of UTF-8 bytes of a text, as in Rust `str::len`. -/
def byteLen : List Char → Nat
  | [] => 0
  | c :: rest => c.utf8Size + byteLen rest

/-- Rust `str::is_char_boundary`: `i` is `0`, the total byte length, or the
first byte of a character; offsets past the end are not boundaries. -/
def isCharBoundary : List Char → Nat → Bool
  | _, 0 => true
  | [], _ + 1 => false
  | c :: rest, i + 1 =>
    if i + 1 < c.utf8Size then false else isCharBoundary rest (i + 1 - c.utf8Size)

/-- The characters occupying the first `i` bytes of a text (for a
boundary-valid `i`). -/
def takeBytes : List Char → Nat → List Char
  | _, 0 => []
  | [], _ + 1 => []
  | c :: rest, i + 1 => c :: takeBytes rest (i + 1 - c.utf8Size)

/-- The characters after the first `i` bytes of a text (for a
boundary-valid `i`). -/
def dropBytes : List Char → Nat → List Char
  | l, 0 => l
  | [], _ + 1 => []
  | c :: rest, i + 1 => dropBytes rest (i + 1 - c.utf8Size)

/-- Rust string slicing `&text[s..e]` at boundary-valid offsets. -/
def sliceBytes (l : List Char) (s e : Nat) : List Char :=
  takeBytes (dropBytes l s) (e - s)

/-- A reference-counted shared input text (`Arc<str>`): the text contents
plus the allocation identity used by `Arc::ptr_eq` / `Arc::as_ptr`. -/
structure SharedStr where
  id : Nat
  val : List Char
  deriving DecidableEq

/-- `pest::Span` from span.rs: a shared input text and two byte offsets.
The source field `end` is a Lean keyword and is named `stop` here. -/
structure Span where
  input : SharedStr
  start : Nat
  stop : Nat
  deriving DecidableEq

/-- Rust `input.get(start..end).is_some()` as used by `Span::new`:
`start <= end` and both offsets are character boundaries (which already
forces both to be at most the byte length). -/
def strGetIsSome (l : List Char) (s e : Nat) : Bool :=
  decide (s ≤ e) && isCharBoundary l s && isCharBoundary l e

/-- `Span::new` from span.rs: checked constructor, `none` when
`input[start..end]` would be an invalid index. -/
def Span.new (input : SharedStr) (s e : Nat) : Option Span :=
  if strGetIsSome input.val s e then some ⟨input, s, e⟩ else none

/-- `Span::as_str` from span.rs: the slice `&input[start..end]`. -/
def Span.as_str (sp : Span) : List Char :=
  sliceBytes sp.input.val sp.start sp.stop

/-- The offset `i` falls strictly inside the byte range of a multi-byte
codepoint of `l` (specification-side notion of an invalid mid-codepoint
offset). -/
def insideCodepoint (l : List Char) (i : Nat) : Prop :=
  ∃ pre c suf, l = pre ++ c :: suf ∧
    byteLen pre < i ∧ i < byteLen pre + c.utf8Size

theorem boundary_le : ∀ (l : List Char) (i : Nat),
    isCharBoundary l i = true → i ≤ byteLen l := by
  intro l
  induction l with
  | nil =>
    intro i h
    cases i with
    | zero => simp [byteLen]
    | succ n => simp [isCharBoundary] at h
  | cons c rest ih =>
    intro i h
    cases i with
    | zero => exact Nat.zero_le _
    | succ n =>
      simp only [isCharBoundary] at h
      by_cases hlt : n + 1 < c.utf8Size
      · simp [hlt] at h
      · simp only [if_neg hlt] at h
        have h2 := ih _ h
        simp only [byteLen]
        omega

theorem boundary_append (pre suf : List Char) :
    isCharBoundary (pre ++ suf) (byteLen pre) = true := by
  induction pre with
  | nil => simp [byteLen, isCharBoundary]
  | cons c pre ih =>
    have hsz := Char.utf8Size_pos c
    obtain ⟨m, hm⟩ : ∃ m, c.utf8Size = m + 1 := ⟨c.utf8Size - 1, by omega⟩
    show isCharBoundary (c :: (pre ++ suf)) (c.utf8Size + byteLen pre) = true
    rw [hm]
    have harg : m + 1 + byteLen pre = (m + byteLen pre) + 1 := by omega
    rw [harg]
    simp only [isCharBoundary]
    have hnlt : ¬ (m + byteLen pre + 1 < c.utf8Size) := by omega
    rw [if_neg hnlt]
    have harg2 : m + byteLen pre + 1 - c.utf8Size = byteLen pre := by omega
    rw [harg2]
    exact ih

theorem boundary_byteLen (l : List Char) :
    isCharBoundary l (byteLen l) = true := by
  have h := boundary_append l []
  rwa [List.append_nil] at h

theorem boundary_zero (l : List Char) : isCharBoundary l 0 = true := by
  cases l <;> rfl

theorem boundary_false_iff : ∀ (l : List Char) (i : Nat),
    isCharBoundary l i = false ↔ (byteLen l < i ∨ insideCodepoint l i) := by
  intro l
  induction l with
  | nil =>
    intro i
    cases i with
    | zero =>
      constructor
      · intro h; exact absurd h (by simp [isCharBoundary])
      · rintro (h | ⟨pre, c, suf, hsplit, _, _⟩)
        · simp only [byteLen] at h; omega
        · exact absurd hsplit (by simp)
    | succ n =>
      constructor
      · intro _; left; simp only [byteLen]; omega
      · intro _; rfl
  | cons c rest ih =>
    intro i
    cases i with
    | zero =>
      constructor
      · intro h; exact absurd h (by simp [isCharBoundary])
      · rintro (h | ⟨pre, d, suf, hsplit, hlt, _⟩)
        · simp only [byteLen] at h
          have := Char.utf8Size_pos c; omega
        · omega
    | succ n =>
      simp only [isCharBoundary]
      by_cases hlt : n + 1 < c.utf8Size
      · rw [if_pos hlt]
        constructor
        · intro _
          right
          exact ⟨[], c, rest, rfl, by simp only [byteLen]; omega,
                 by simp only [byteLen]; omega⟩
        · intro _; rfl
      · rw [if_neg hlt]
        rw [ih (n + 1 - c.utf8Size)]
        constructor
        · rintro (h | ⟨pre, d, suf, hsplit, h1, h2⟩)
          · left; simp only [byteLen]; omega
          · right
            refine ⟨c :: pre, d, suf, by rw [hsplit]; rfl, ?_, ?_⟩
            · simp only [byteLen]; omega
            · simp only [byteLen]; omega
        · rintro (h | ⟨pre, d, suf, hsplit, h1, h2⟩)
          · left; simp only [byteLen] at h; omega
          · cases pre with
            | nil =>
              simp only [List.nil_append, List.cons.injEq] at hsplit
              obtain ⟨hc, _⟩ := hsplit
              subst hc
              simp only [byteLen] at h1 h2
              omega
            | cons c' pre' =>
              simp only [List.cons_append, List.cons.injEq] at hsplit
              obtain ⟨hc, hrest⟩ := hsplit
              subst hc
              right
              refine ⟨pre', d, suf, hrest, ?_, ?_⟩
              · simp only [byteLen] at h1; omega
              · simp only [byteLen] at h2; omega

theorem take_drop_eq : ∀ (l : List Char) (i : Nat),
    isCharBoundary l i = true → takeBytes l i ++ dropBytes l i = l := by
  intro l
  induction l with
  | nil =>
    intro i h
    cases i with
    | zero => rfl
    | succ n => simp [isCharBoundary] at h
  | cons c rest ih =>
    intro i h
    cases i with
    | zero => rfl
    | succ n =>
      simp only [isCharBoundary] at h
      by_cases hlt : n + 1 < c.utf8Size
      · simp [hlt] at h
      · rw [if_neg hlt] at h
        simp only [takeBytes, dropBytes, List.cons_append]
        rw [ih _ h]

theorem byteLen_take : ∀ (l : List Char) (i : Nat),
    isCharBoundary l i = true → byteLen (takeBytes l i) = i := by
  intro l
  induction l with
  | nil =>
    intro i h
    cases i with
    | zero => rfl
    | succ n => simp [isCharBoundary] at h
  | cons c rest ih =>
    intro i h
    cases i with
    | zero => rfl
    | succ n =>
      simp only [isCharBoundary] at h
      by_cases hlt : n + 1 < c.utf8Size
      · simp [hlt] at h
      · rw [if_neg hlt] at h
        simp only [takeBytes, byteLen]
        rw [ih _ h]
        omega

theorem boundary_drop : ∀ (l : List Char) (a b : Nat),
    isCharBoundary l a = true → isCharBoundary l b = true → a ≤ b →
    isCharBoundary (dropBytes l a) (b - a) = true := by
  intro l
  induction l with
  | nil =>
    intro a b ha hb hab
    cases a with
    | zero => simpa using hb
    | succ n => simp [isCharBoundary] at ha
  | cons c rest ih =>
    intro a b ha hb hab
    cases a with
    | zero => simpa using hb
    | succ n =>
      simp only [isCharBoundary] at ha
      by_cases hlt : n + 1 < c.utf8Size
      · simp [hlt] at ha
      · rw [if_neg hlt] at ha
        cases b with
        | zero => omega
        | succ m =>
          simp only [isCharBoundary] at hb
          by_cases hltb : m + 1 < c.utf8Size
          · simp [hltb] at hb
          · rw [if_neg hltb] at hb
            simp only [dropBytes]
            have harg : m + 1 - (n + 1) = (m + 1 - c.utf8Size) - (n + 1 - c.utf8Size) := by
              omega
            rw [harg]
            exact ih _ _ ha hb (by omega)

theorem drop_drop : ∀ (l : List Char) (a b : Nat),
    isCharBoundary l a = true → a ≤ b →
    dropBytes l b = dropBytes (dropBytes l a) (b - a) := by
  intro l
  induction l with
  | nil =>
    intro a b ha hab
    cases a with
    | zero => simp [dropBytes]
    | succ n => simp [isCharBoundary] at ha
  | cons c rest ih =>
    intro a b ha hab
    cases a with
    | zero => simp [dropBytes]
    | succ n =>
      simp only [isCharBoundary] at ha
      by_cases hlt : n + 1 < c.utf8Size
      · simp [hlt] at ha
      · rw [if_neg hlt] at ha
        cases b with
        | zero => omega
        | succ m =>
          simp only [dropBytes]
          have h1 := ih _ (m + 1 - c.utf8Size) ha (by omega)
          rw [h1]
          have harg : m + 1 - c.utf8Size - (n + 1 - c.utf8Size) = m + 1 - (n + 1) := by
            omega
          rw [harg]

theorem take_add : ∀ (l : List Char) (i j : Nat),
    isCharBoundary l i = true →
    takeBytes l i ++ takeBytes (dropBytes l i) j = takeBytes l (i + j) := by
  intro l
  induction l with
  | nil =>
    intro i j h
    cases i with
    | zero => simp [takeBytes, dropBytes]
    | succ n => simp [isCharBoundary] at h
  | cons c rest ih =>
    intro i j h
    cases i with
    | zero => simp [takeBytes, dropBytes]
    | succ n =>
      simp only [isCharBoundary] at h
      by_cases hlt : n + 1 < c.utf8Size
      · simp [hlt] at h
      · rw [if_neg hlt] at h
        simp only [takeBytes, dropBytes, List.cons_append]
        have harg : n + 1 + j = (n + j) + 1 := by omega
        rw [harg]
        simp only [takeBytes]
        have harg2 : n + j + 1 - c.utf8Size = (n + 1 - c.utf8Size) + j := by omega
        rw [harg2]
        rw [ih _ j h]

theorem slice_append (l : List Char) (a b c : Nat)
    (ha : isCharBoundary l a = true) (hb : isCharBoundary l b = true)
    (hab : a ≤ b) (hbc : b ≤ c) :
    sliceBytes l a b ++ sliceBytes l b c = sliceBytes l a c := by
  unfold sliceBytes
  rw [drop_drop l a b ha hab]
  rw [take_add (dropBytes l a) (b - a) (c - b) (boundary_drop l a b ha hb hab)]
  have harg : b - a + (c - b) = c - a := by omega
  rw [harg]

theorem slice_refl (l : List Char) (a : Nat) : sliceBytes l a a = [] := by
  simp [sliceBytes, takeBytes]

/-- C1: `Span::new(text, start, end)` returns no value exactly when
`[start, end)` is not a valid boundary-aligned subslice of the text
(start past end, an offset past the byte length, or an offset inside a
multi-byte codepoint); otherwise it returns a span whose `as_str` is the
exact substring of the text between the two offsets (the middle part of a
decomposition of the text at those byte offsets). -/
theorem span_new_correct (input : SharedStr) (s e : Nat) :
    (Span.new input s e = none ↔
      (e < s ∨ byteLen input.val < s ∨ insideCodepoint input.val s ∨
        byteLen input.val < e ∨ insideCodepoint input.val e))
    ∧ (∀ sp, Span.new input s e = some sp →
        ∃ pre mid suf, input.val = pre ++ mid ++ suf ∧
          byteLen pre = s ∧ byteLen pre + byteLen mid = e ∧
          Span.as_str sp = mid) := by
  constructor
  · by_cases hg : strGetIsSome input.val s e = true
    · simp only [Span.new, if_pos hg]
      simp only [strGetIsSome, Bool.and_eq_true, decide_eq_true_eq] at hg
      obtain ⟨⟨hse, hbs⟩, hbe⟩ := hg
      constructor
      · intro h; cases h
      · rintro (h | h | h | h | h)
        · omega
        · have := boundary_le _ _ hbs; omega
        · have : isCharBoundary input.val s = false := by
            rw [boundary_false_iff]; right; exact h
          rw [hbs] at this; cases this
        · have := boundary_le _ _ hbe; omega
        · have : isCharBoundary input.val e = false := by
            rw [boundary_false_iff]; right; exact h
          rw [hbe] at this; cases this
    · simp only [Span.new, if_neg hg]
      constructor
      · intro _
        simp only [strGetIsSome, Bool.and_eq_true, decide_eq_true_eq, not_and] at hg
        by_cases hse : s ≤ e
        · by_cases hbs : isCharBoundary input.val s = true
          · have hbe : isCharBoundary input.val e = false := by
              cases hx : isCharBoundary input.val e
              · rfl
              · exact (hg ⟨hse, hbs⟩ hx).elim
            rw [boundary_false_iff] at hbe
            rcases hbe with h | h
            · right; right; right; left; exact h
            · right; right; right; right; exact h
          · have hbs' : isCharBoundary input.val s = false := by
              cases hx : isCharBoundary input.val s
              · rfl
              · exact absurd hx hbs
            rw [boundary_false_iff] at hbs'
            rcases hbs' with h | h
            · right; left; exact h
            · right; right; left; exact h
        · left; omega
      · intro _; trivial
  · intro sp hsp
    by_cases hg : strGetIsSome input.val s e = true
    · simp only [Span.new, if_pos hg, Option.some.injEq] at hsp
      simp only [strGetIsSome, Bool.and_eq_true, decide_eq_true_eq] at hg
      obtain ⟨⟨hse, hbs⟩, hbe⟩ := hg
      refine ⟨takeBytes input.val s,
              takeBytes (dropBytes input.val s) (e - s),
              dropBytes (dropBytes input.val s) (e - s), ?_, ?_, ?_, ?_⟩
      · rw [List.append_assoc]
        rw [take_drop_eq (dropBytes input.val s) (e - s) (boundary_drop _ _ _ hbs hbe hse)]
        rw [take_drop_eq input.val s hbs]
      · exact byteLen_take _ _ hbs
      · rw [byteLen_take _ _ hbs]
        rw [byteLen_take _ _ (boundary_drop _ _ _ hbs hbe hse)]
        omega
      · rw [← hsp]
        rfl
    · simp [Span.new, if_neg hg] at hsp

/-- Closed-form instance of `span_new_correct`: the decomposition produced
for the span over bytes `[0, 1)` of the text `ab`. -/
theorem span_new_correct_witness :
    ∃ pre mid suf, ("ab").data = pre ++ mid ++ suf ∧
      byteLen pre = 0 ∧ byteLen pre + byteLen mid = 1 ∧
      Span.as_str ⟨⟨0, ("ab").data⟩, 0, 1⟩ = mid :=
  (span_new_correct ⟨0, ("ab").data⟩ 0 1).2 ⟨⟨0, ("ab").data⟩, 0, 1⟩ (by decide)

/-- Modelled from the spec: the external cursor type ("Position",
position.rs, not under src/) determines the start offset of the line
containing an offset. Scans the text keeping the offset just after the
last newline whose end is at most `pos` (`best`), with `cur` the byte
offset of the head of the remaining list. -/
def lineStartAux : List Char → Nat → Nat → Nat → Nat
  | [], _, best, _ => best
  | c :: rest, cur, best, pos =>
    if cur + c.utf8Size ≤ pos ∧ c = '\n' then
      lineStartAux rest (cur + c.utf8Size) (cur + c.utf8Size) pos
    else if cur + c.utf8Size ≤ pos then lineStartAux rest (cur + c.utf8Size) best pos
    else best

/-- Modelled from the spec: `Position::find_line_start` — the start offset
of the line containing `pos`. -/
def findLineStart (l : List Char) (pos : Nat) : Nat := lineStartAux l 0 0 pos

/-- Modelled from the spec: helper for the end offset of the line
containing `pos` — the offset just after the first newline at byte offset
at least `pos`, or the total byte length when there is none. -/
def lineEndAux : List Char → Nat → Nat → Nat
  | [], cur, _ => cur
  | c :: rest, cur, pos =>
    if pos ≤ cur ∧ c = '\n' then cur + 1
    else lineEndAux rest (cur + c.utf8Size) pos

/-- Modelled from the spec: `Position::find_line_end` — the end offset
(exclusive, including the terminator if present) of the line containing
`pos`. -/
def findLineEnd (l : List Char) (pos : Nat) : Nat := lineEndAux l 0 pos

/-- `Lines::next` from span.rs, iterated to a list: stop when the cursor
offset exceeds the span end, when `Position::new` fails (offset is not a
character boundary), or when the cursor is at end of input; otherwise
slice the current line, move the cursor to its end and continue. The
`fuel` argument only bounds the number of iterations; `Span.lines`
supplies enough fuel for the loop to run to completion (see
`linesAux_fuel_independent`). -/
def linesAux (l : List Char) (e : Nat) : Nat → Nat → List (List Char)
  | _, 0 => []
  | pos, fuel + 1 =>
    if e < pos then []
    else if isCharBoundary l pos = false then []
    else if pos = byteLen l then []
    else sliceBytes l (findLineStart l pos) (findLineEnd l pos) ::
      linesAux l e (findLineEnd l pos) fuel

/-- `Span::lines` from span.rs: all lines at least partially covered by
the span, starting the cursor at the span start. -/
def Span.lines (sp : Span) : List (List Char) :=
  linesAux sp.input.val sp.stop sp.start (byteLen sp.input.val + 1)

theorem lineEndAux_lb : ∀ (l : List Char) (cur pos : Nat),
    cur ≤ lineEndAux l cur pos := by
  intro l
  induction l with
  | nil => intro cur pos; simp [lineEndAux]
  | cons c rest ih =>
    intro cur pos
    simp only [lineEndAux]
    by_cases h : pos ≤ cur ∧ c = '\n'
    · rw [if_pos h]; omega
    · rw [if_neg h]
      have := ih (cur + c.utf8Size) pos
      omega

theorem lineEndAux_ub : ∀ (l : List Char) (cur pos : Nat),
    lineEndAux l cur pos ≤ cur + byteLen l := by
  intro l
  induction l with
  | nil => intro cur pos; simp [lineEndAux, byteLen]
  | cons c rest ih =>
    intro cur pos
    simp only [lineEndAux, byteLen]
    by_cases h : pos ≤ cur ∧ c = '\n'
    · rw [if_pos h]
      have := Char.utf8Size_pos c
      omega
    · rw [if_neg h]
      have := ih (cur + c.utf8Size) pos
      omega

theorem lineEndAux_ge : ∀ (l : List Char) (cur pos : Nat),
    pos ≤ cur + byteLen l → pos ≤ lineEndAux l cur pos := by
  intro l
  induction l with
  | nil => intro cur pos h; simp only [byteLen] at h; simp [lineEndAux]; omega
  | cons c rest ih =>
    intro cur pos h
    simp only [lineEndAux]
    by_cases hc : pos ≤ cur ∧ c = '\n'
    · rw [if_pos hc]; omega
    · rw [if_neg hc]
      apply ih
      simp only [byteLen] at h
      omega

theorem lineEndAux_strict : ∀ (l : List Char) (cur pos : Nat),
    pos < cur + byteLen l → pos < lineEndAux l cur pos := by
  intro l
  induction l with
  | nil => intro cur pos h; simp only [byteLen] at h; simp [lineEndAux]; omega
  | cons c rest ih =>
    intro cur pos h
    simp only [lineEndAux]
    by_cases hc : pos ≤ cur ∧ c = '\n'
    · rw [if_pos hc]; omega
    · rw [if_neg hc]
      apply ih
      simp only [byteLen] at h
      omega

theorem lineEndAux_boundary : ∀ (l : List Char) (cur pos : Nat),
    ∃ k, isCharBoundary l k = true ∧ lineEndAux l cur pos = cur + k := by
  intro l
  induction l with
  | nil => intro cur pos; exact ⟨0, rfl, rfl⟩
  | cons c rest ih =>
    intro cur pos
    simp only [lineEndAux]
    by_cases hc : pos ≤ cur ∧ c = '\n'
    · rw [if_pos hc]
      refine ⟨1, ?_, rfl⟩
      have hsz : c.utf8Size = 1 := by rw [hc.2]; rfl
      simp only [isCharBoundary]
      rw [if_neg (by omega)]
      have : 1 - c.utf8Size = 0 := by omega
      rw [this]
      exact boundary_zero rest
    · rw [if_neg hc]
      obtain ⟨k, hk, heq⟩ := ih (cur + c.utf8Size) pos
      refine ⟨c.utf8Size + k, ?_, by omega⟩
      have hsz := Char.utf8Size_pos c
      obtain ⟨m, hm⟩ : ∃ m, c.utf8Size = m + 1 := ⟨c.utf8Size - 1, by omega⟩
      have harg : c.utf8Size + k = (m + k) + 1 := by omega
      rw [harg]
      simp only [isCharBoundary]
      rw [if_neg (by omega)]
      have harg2 : m + k + 1 - c.utf8Size = k := by omega
      rw [harg2]
      exact hk

theorem lineEndAux_stable : ∀ (l : List Char) (cur pos x : Nat),
    pos ≤ x → x < lineEndAux l cur pos → lineEndAux l cur x = lineEndAux l cur pos := by
  intro l
  induction l with
  | nil =>
    intro cur pos x hpx hx
    simp only [lineEndAux] at hx ⊢
  | cons c rest ih =>
    intro cur pos x hpx hx
    simp only [lineEndAux] at hx ⊢
    by_cases hc : pos ≤ cur ∧ c = '\n'
    · rw [if_pos hc] at hx
      have hxc : x ≤ cur := by omega
      rw [if_pos ⟨hxc, hc.2⟩, if_pos hc]
    · rw [if_neg hc] at hx
      by_cases hc2 : x ≤ cur ∧ c = '\n'
      · exact absurd ⟨by omega, hc2.2⟩ hc
      · rw [if_neg hc2, if_neg hc]
        exact ih _ _ _ hpx hx

theorem lineStartAux_ub : ∀ (l : List Char) (cur best pos : Nat),
    best ≤ pos → lineStartAux l cur best pos ≤ pos := by
  intro l
  induction l with
  | nil => intro cur best pos h; simpa [lineStartAux] using h
  | cons c rest ih =>
    intro cur best pos h
    simp only [lineStartAux]
    by_cases h1 : cur + c.utf8Size ≤ pos ∧ c = '\n'
    · rw [if_pos h1]; exact ih _ _ _ h1.1
    · rw [if_neg h1]
      by_cases h2 : cur + c.utf8Size ≤ pos
      · rw [if_pos h2]; exact ih _ _ _ h
      · rw [if_neg h2]; exact h

theorem lineStartAux_boundary : ∀ (l : List Char) (cur best pos : Nat),
    lineStartAux l cur best pos = best ∨
    ∃ k, isCharBoundary l k = true ∧ lineStartAux l cur best pos = cur + k := by
  intro l
  induction l with
  | nil => intro cur best pos; left; rfl
  | cons c rest ih =>
    intro cur best pos
    have lift : ∀ best', (∃ k, isCharBoundary rest k = true ∧
        lineStartAux rest (cur + c.utf8Size) best' pos = cur + c.utf8Size + k) →
        ∃ k, isCharBoundary (c :: rest) k = true ∧
          lineStartAux rest (cur + c.utf8Size) best' pos = cur + k := by
      rintro best' ⟨k, hk, heq⟩
      refine ⟨c.utf8Size + k, ?_, by omega⟩
      have hsz := Char.utf8Size_pos c
      obtain ⟨m, hm⟩ : ∃ m, c.utf8Size = m + 1 := ⟨c.utf8Size - 1, by omega⟩
      have harg : c.utf8Size + k = (m + k) + 1 := by omega
      rw [harg]
      simp only [isCharBoundary]
      rw [if_neg (by omega)]
      have harg2 : m + k + 1 - c.utf8Size = k := by omega
      rw [harg2]
      exact hk
    simp only [lineStartAux]
    by_cases h1 : cur + c.utf8Size ≤ pos ∧ c = '\n'
    · rw [if_pos h1]
      rcases ih (cur + c.utf8Size) (cur + c.utf8Size) pos with h | h
      · right
        rw [h]
        refine ⟨c.utf8Size, ?_, rfl⟩
        have hsz := Char.utf8Size_pos c
        obtain ⟨m, hm⟩ : ∃ m, c.utf8Size = m + 1 := ⟨c.utf8Size - 1, by omega⟩
        rw [hm]
        simp only [isCharBoundary]
        rw [if_neg (by omega)]
        have harg : m + 1 - c.utf8Size = 0 := by omega
        rw [harg]
        exact boundary_zero rest
      · right; exact lift _ h
    · rw [if_neg h1]
      by_cases h2 : cur + c.utf8Size ≤ pos
      · rw [if_pos h2]
        rcases ih (cur + c.utf8Size) best pos with h | h
        · left; exact h
        · right; exact lift _ h
      · rw [if_neg h2]; left; rfl

theorem lineStartAux_self (l : List Char) (x : Nat) : lineStartAux l x x x = x := by
  cases l with
  | nil => rfl
  | cons c rest =>
    have hsz := Char.utf8Size_pos c
    simp only [lineStartAux]
    rw [if_neg (by omega), if_neg (by omega)]

theorem lineStart_of_lineEnd : ∀ (l : List Char) (cur best pos : Nat),
    lineEndAux l cur pos < cur + byteLen l → best ≤ lineEndAux l cur pos →
    lineStartAux l cur best (lineEndAux l cur pos) = lineEndAux l cur pos := by
  intro l
  induction l with
  | nil =>
    intro cur best pos h _
    simp only [lineEndAux, byteLen] at h
    omega
  | cons c rest ih =>
    intro cur best pos h hbest
    simp only [lineEndAux] at h hbest ⊢
    by_cases hc : pos ≤ cur ∧ c = '\n'
    · rw [if_pos hc] at h hbest ⊢
      have hsz : c.utf8Size = 1 := by rw [hc.2]; rfl
      simp only [lineStartAux]
      rw [if_pos (show cur + c.utf8Size ≤ cur + 1 ∧ c = '\n' from ⟨by omega, hc.2⟩)]
      rw [hsz]
      exact lineStartAux_self rest (cur + 1)
    · rw [if_neg hc] at h hbest ⊢
      have hlb := lineEndAux_lb rest (cur + c.utf8Size) pos
      simp only [lineStartAux]
      by_cases h1 : cur + c.utf8Size ≤ lineEndAux rest (cur + c.utf8Size) pos ∧ c = '\n'
      · rw [if_pos h1]
        apply ih
        · simp only [byteLen] at h; omega
        · omega
      · rw [if_neg h1, if_pos hlb]
        apply ih
        · simp only [byteLen] at h; omega
        · omega

theorem linesAux_nil (l : List Char) (e pos : Nat)
    (h : e < pos ∨ pos = byteLen l) : ∀ fuel, linesAux l e pos fuel = [] := by
  intro fuel
  cases fuel with
  | zero => rfl
  | succ f =>
    rcases h with h | h
    · simp only [linesAux, if_pos h]
    · simp only [linesAux]
      by_cases h1 : e < pos
      · rw [if_pos h1]
      · rw [if_neg h1]
        have hb : isCharBoundary l pos = true := by rw [h]; exact boundary_byteLen l
        rw [hb]
        simp only [Bool.true_eq_false, if_false, if_pos h]

theorem linesAux_fuel_independent : ∀ (f1 : Nat) (l : List Char) (e pos f2 : Nat),
    byteLen l - pos < f1 → byteLen l - pos < f2 →
    linesAux l e pos f1 = linesAux l e pos f2 := by
  intro f1
  induction f1 with
  | zero => intro l e pos f2 h1 h2; omega
  | succ f1 ih =>
    intro l e pos f2 h1 h2
    cases f2 with
    | zero => omega
    | succ f2 =>
      simp only [linesAux]
      by_cases hpe : e < pos
      · simp only [if_pos hpe]
      · simp only [if_neg hpe]
        by_cases hb : isCharBoundary l pos = false
        · simp only [if_pos hb]
        · simp only [if_neg hb]
          by_cases hend : pos = byteLen l
          · simp only [if_pos hend]
          · simp only [if_neg hend]
            have hble : pos ≤ byteLen l := by
              apply boundary_le
              cases hx : isCharBoundary l pos
              · exact absurd hx hb
              · rfl
            have hlt : pos < byteLen l := by omega
            have hstep : pos < findLineEnd l pos := by
              have := lineEndAux_strict l 0 pos (by omega)
              simpa [findLineEnd] using this
            rw [ih l e (findLineEnd l pos) f2 (by omega) (by omega)]

theorem findLineEnd_ub (l : List Char) (pos : Nat) :
    findLineEnd l pos ≤ byteLen l := by
  have := lineEndAux_ub l 0 pos
  simpa [findLineEnd] using this

theorem findLineEnd_ge (l : List Char) (pos : Nat) (h : pos ≤ byteLen l) :
    pos ≤ findLineEnd l pos := by
  have := lineEndAux_ge l 0 pos (by omega)
  simpa [findLineEnd] using this

theorem findLineEnd_strict (l : List Char) (pos : Nat) (h : pos < byteLen l) :
    pos < findLineEnd l pos := by
  have := lineEndAux_strict l 0 pos (by omega)
  simpa [findLineEnd] using this

theorem findLineEnd_boundary (l : List Char) (pos : Nat) :
    isCharBoundary l (findLineEnd l pos) = true := by
  obtain ⟨k, hk, heq⟩ := lineEndAux_boundary l 0 pos
  show isCharBoundary l (lineEndAux l 0 pos) = true
  rw [heq]
  simpa using hk

theorem findLineEnd_stable (l : List Char) (pos x : Nat)
    (hpx : pos ≤ x) (hx : x < findLineEnd l pos) :
    findLineEnd l x = findLineEnd l pos := by
  have hx' : x < lineEndAux l 0 pos := by simpa [findLineEnd] using hx
  have := lineEndAux_stable l 0 pos x hpx hx'
  simpa [findLineEnd] using this

theorem findLineStart_ub (l : List Char) (pos : Nat) :
    findLineStart l pos ≤ pos :=
  lineStartAux_ub l 0 0 pos (Nat.zero_le pos)

theorem findLineStart_boundary (l : List Char) (pos : Nat) :
    isCharBoundary l (findLineStart l pos) = true := by
  rcases lineStartAux_boundary l 0 0 pos with h | ⟨k, hk, heq⟩
  · show isCharBoundary l (lineStartAux l 0 0 pos) = true
    rw [h]; exact boundary_zero l
  · show isCharBoundary l (lineStartAux l 0 0 pos) = true
    rw [heq]; simpa using hk

theorem findLineStart_of_findLineEnd (l : List Char) (pos : Nat)
    (h : findLineEnd l pos < byteLen l) :
    findLineStart l (findLineEnd l pos) = findLineEnd l pos := by
  show lineStartAux l 0 0 (lineEndAux l 0 pos) = lineEndAux l 0 pos
  apply lineStart_of_lineEnd l 0 0 pos
  · have : lineEndAux l 0 pos < byteLen l := by simpa [findLineEnd] using h
    omega
  · exact Nat.zero_le _

/-- The final cursor offset of the `lines()` loop of a span `[pos, e)`:
the start of the line containing `pos` when the loop yields nothing
(cursor at end of input), the end of input when `e` is at end of input,
and otherwise the end offset of the line containing `e`. -/
def stopOffset (l : List Char) (e pos : Nat) : Nat :=
  if pos = byteLen l then findLineStart l pos
  else if e = byteLen l then byteLen l
  else findLineEnd l e

theorem linesAux_flatten : ∀ (fuel : Nat) (l : List Char) (e pos : Nat),
    byteLen l - pos < fuel → isCharBoundary l pos = true →
    pos ≤ e → e ≤ byteLen l →
    (linesAux l e pos fuel).flatten =
      sliceBytes l (findLineStart l pos) (stopOffset l e pos) := by
  intro fuel
  induction fuel with
  | zero => intro l e pos h1 _ _ _; omega
  | succ fuel ih =>
    intro l e pos hfuel hb hpe heb
    by_cases hend : pos = byteLen l
    · rw [linesAux_nil l e pos (Or.inr hend)]
      simp only [stopOffset, if_pos hend, List.flatten_nil]
      rw [slice_refl]
    · have hple : pos < byteLen l := by have := boundary_le l pos hb; omega
      have hle_strict : pos < findLineEnd l pos := findLineEnd_strict l pos hple
      have hle_ub : findLineEnd l pos ≤ byteLen l := findLineEnd_ub l pos
      have hle_b : isCharBoundary l (findLineEnd l pos) = true := findLineEnd_boundary l pos
      have hls_b : isCharBoundary l (findLineStart l pos) = true :=
        findLineStart_boundary l pos
      have hls_ub : findLineStart l pos ≤ pos := findLineStart_ub l pos
      simp only [linesAux]
      rw [if_neg (by omega), if_neg (by simp [hb]), if_neg hend]
      by_cases hcont : findLineEnd l pos ≤ e ∧ findLineEnd l pos < byteLen l
      · obtain ⟨hc1, hc2⟩ := hcont
        simp only [List.flatten_cons]
        rw [ih l e (findLineEnd l pos) (by omega) hle_b hc1 heb]
        rw [findLineStart_of_findLineEnd l pos hc2]
        have hstopeq : stopOffset l e (findLineEnd l pos) = stopOffset l e pos := by
          simp only [stopOffset, if_neg (by omega : ¬ findLineEnd l pos = byteLen l),
            if_neg hend]
        rw [hstopeq]
        have hstop_ge : findLineEnd l pos ≤ stopOffset l e pos := by
          simp only [stopOffset, if_neg hend]
          by_cases he : e = byteLen l
          · rw [if_pos he]; omega
          · rw [if_neg he]
            have := findLineEnd_ge l e (by omega)
            omega
        exact slice_append l (findLineStart l pos) (findLineEnd l pos)
          (stopOffset l e pos) hls_b hle_b (by omega) hstop_ge
      · have hstop : linesAux l e (findLineEnd l pos) fuel = [] := by
          apply linesAux_nil
          by_cases hc1 : findLineEnd l pos ≤ e
          · right
            by_cases hc2 : findLineEnd l pos < byteLen l
            · exact absurd ⟨hc1, hc2⟩ hcont
            · omega
          · left; omega
        rw [hstop]
        simp only [List.flatten_cons, List.flatten_nil, List.append_nil]
        have hR : stopOffset l e pos = findLineEnd l pos := by
          simp only [stopOffset, if_neg hend]
          by_cases he : e = byteLen l
          · rw [if_pos he]
            by_cases hc1 : findLineEnd l pos ≤ e
            · by_cases hc2 : findLineEnd l pos < byteLen l
              · exact absurd ⟨hc1, hc2⟩ hcont
              · omega
            · omega
          · rw [if_neg he]
            have helt : e < findLineEnd l pos := by
              by_cases hc1 : findLineEnd l pos ≤ e
              · by_cases hc2 : findLineEnd l pos < byteLen l
                · exact absurd ⟨hc1, hc2⟩ hcont
                · omega
              · omega
            exact findLineEnd_stable l pos e hpe helt
        rw [hR]

/-- C2: on input `abc\ndef\nghi`, `lines()` of the span over bytes `[1, 7)`
yields exactly `abc\n` then `def\n`, and `lines()` of the span over bytes
`[5, 11)` yields exactly `def\n` then `ghi`. -/
theorem span_lines_scenarios :
    (Span.new ⟨0, ("abc\ndef\nghi").data⟩ 1 7).map Span.lines =
      some [("abc\n").data, ("def\n").data]
    ∧ (Span.new ⟨0, ("abc\ndef\nghi").data⟩ 5 11).map Span.lines =
      some [("def\n").data, ("ghi").data] := by
  decide

/-- C7: for every valid span `[s, e)`, the `lines()` loop terminates (its
result is already stable at the fuel supplied by `Span.lines`, so every
larger iteration budget produces the same finite sequence), and the
concatenation of the yielded slices is exactly the text from the start of
the first line at least partially covered by the span
(`findLineStart` at `s`) to the end of the last such line (`stopOffset`,
which is the end of the line containing `e` and may lie beyond `e` when
`e` falls mid-line). -/
theorem span_lines_flatten (input : SharedStr) (s e : Nat) (sp : Span)
    (h : Span.new input s e = some sp) :
    (Span.lines sp).flatten =
      sliceBytes input.val (findLineStart input.val s) (stopOffset input.val e s)
    ∧ ∀ f, byteLen input.val + 1 ≤ f →
        linesAux input.val e s f = Span.lines sp := by
  have hg : strGetIsSome input.val s e = true := by
    by_cases hx : strGetIsSome input.val s e = true
    · exact hx
    · rw [Span.new, if_neg hx] at h; cases h
  have hsp : sp = ⟨input, s, e⟩ := by
    rw [Span.new, if_pos hg] at h
    exact (Option.some.injEq _ _ ▸ h).symm
  simp only [strGetIsSome, Bool.and_eq_true, decide_eq_true_eq] at hg
  obtain ⟨⟨hse, hbs⟩, hbe⟩ := hg
  have heb : e ≤ byteLen input.val := boundary_le _ _ hbe
  subst hsp
  constructor
  · exact linesAux_flatten (byteLen input.val + 1) input.val e s (by omega) hbs hse heb
  · intro f hf
    exact linesAux_fuel_independent f input.val e s (byteLen input.val + 1)
      (by omega) (by omega)

/-- Closed-form instance of `span_lines_flatten` at the span `[0, 4)` of
the text `ab\ncd`, with iteration budget `9`. -/
theorem span_lines_flatten_witness :
    (Span.lines ⟨⟨1, ("ab\ncd").data⟩, 0, 4⟩).flatten =
      sliceBytes (("ab\ncd").data) (findLineStart (("ab\ncd").data) 0)
        (stopOffset (("ab\ncd").data) 4 0)
    ∧ linesAux (("ab\ncd").data) 4 0 9 = Span.lines ⟨⟨1, ("ab\ncd").data⟩, 0, 4⟩ := by
  have h := span_lines_flatten ⟨1, ("ab\ncd").data⟩ 0 4 ⟨⟨1, ("ab\ncd").data⟩, 0, 4⟩
    (by decide)
  exact ⟨h.1, h.2 9 (by decide)⟩

/-- C10: for a valid empty span (`start = end`), `lines()` yields exactly
the one full line containing the offset when the offset is not at end of
input, and yields nothing when it is. -/
theorem span_lines_empty_span (input : SharedStr) (s : Nat) (sp : Span)
    (h : Span.new input s s = some sp) :
    (s ≠ byteLen input.val →
      Span.lines sp =
        [sliceBytes input.val (findLineStart input.val s) (findLineEnd input.val s)])
    ∧ (s = byteLen input.val → Span.lines sp = []) := by
  have hg : strGetIsSome input.val s s = true := by
    by_cases hx : strGetIsSome input.val s s = true
    · exact hx
    · rw [Span.new, if_neg hx] at h; cases h
  have hsp : sp = ⟨input, s, s⟩ := by
    rw [Span.new, if_pos hg] at h
    exact (Option.some.injEq _ _ ▸ h).symm
  simp only [strGetIsSome, Bool.and_eq_true, decide_eq_true_eq] at hg
  obtain ⟨⟨_, hbs⟩, _⟩ := hg
  subst hsp
  constructor
  · intro hne
    have hple : s < byteLen input.val := by have := boundary_le _ _ hbs; omega
    show linesAux input.val s s (byteLen input.val + 1) = _
    simp only [linesAux]
    rw [if_neg (by omega), if_neg (by simp [hbs]), if_neg hne]
    rw [linesAux_nil input.val s (findLineEnd input.val s)
      (Or.inl (findLineEnd_strict input.val s hple))]
  · intro hend
    exact linesAux_nil input.val s s (Or.inr hend) _

/-- Closed-form instance of `span_lines_empty_span` at the empty span
`[1, 1)` of the text `ab\ncd`: one full line is yielded. -/
theorem span_lines_empty_span_witness :
    Span.lines ⟨⟨0, ("ab\ncd").data⟩, 1, 1⟩ = [("ab\n").data] := by
  have h := (span_lines_empty_span ⟨0, ("ab\ncd").data⟩ 1 ⟨⟨0, ("ab\ncd").data⟩, 1, 1⟩
    (by decide)).1 (by decide)
  rw [h]
  decide

/-- `QueueableToken` from queueable_token.rs (declared outside src/): the
two event-log variants exactly as used by pair.rs and described by the
spec — `Start` carries the index of its matching `End` plus a byte
offset, `End` carries the rule identifier plus a byte offset. -/
inductive QueueableToken (R : Type) where
  | Start (end_token_index : Nat) (input_pos : Nat)
  | End (rule : R) (input_pos : Nat)
  deriving DecidableEq

/-- A reference-counted shared event log (`Rc<Vec<QueueableToken<R>>>`):
the entries plus the allocation identity used by `Rc::ptr_eq`. -/
structure SharedQueue (R : Type) where
  id : Nat
  val : List (QueueableToken R)
  deriving DecidableEq

/-- `pest::iterators::Pair` from pair.rs: shared event log, shared input
text, and the token index of this pair's `Start` entry. -/
structure Pair (R : Type) where
  queue : SharedQueue R
  input : SharedStr
  start : Nat
  deriving DecidableEq

/-- The `input_pos` common to both `QueueableToken` variants. -/
def QueueableToken.inputPos {R : Type} : QueueableToken R → Nat
  | .Start _ ip => ip
  | .End _ ip => ip

/-- `Pair::pos` from pair.rs: the `input_pos` of the entry at `index`;
`none` models the out-of-bounds indexing panic. -/
def Pair.pos {R : Type} (p : Pair R) (index : Nat) : Option Nat :=
  (p.queue.val[index]?).map QueueableToken.inputPos

/-- `Pair::pair` from pair.rs: the `end_token_index` of the `Start` entry
at `self.start`; `none` models the `unreachable!` panic (and the indexing
panic) when the entry is missing or is not a `Start`. -/
def Pair.pair {R : Type} (p : Pair R) : Option Nat :=
  match p.queue.val[p.start]? with
  | some (.Start e _) => some e
  | _ => none

/-- `Pair::as_rule` from pair.rs: the rule of the `End` entry at the
matching index; `none` models the `unreachable!` panic when that entry is
missing or is not an `End`. -/
def Pair.as_rule {R : Type} (p : Pair R) : Option R :=
  match p.pair with
  | some e =>
    match p.queue.val[e]? with
    | some (.End r _) => some r
    | _ => none
  | none => none

/-- `Pair::as_str` from pair.rs: the slice of the input text between the
byte offsets of the `Start` entry and its matching `End` entry. -/
def Pair.as_str {R : Type} (p : Pair R) : Option (List Char) := do
  let e ← p.pair
  let s ← p.pos p.start
  let en ← p.pos e
  pure (sliceBytes p.input.val s en)

/-- `Pair::as_span` from pair.rs: a `Span` over the same byte range,
built with the trusted constructor `Span::new_unchecked`. -/
def Pair.as_span {R : Type} (p : Pair R) : Option Span := do
  let e ← p.pair
  let s ← p.pos p.start
  let en ← p.pos e
  pure ⟨p.input, s, en⟩

/-- Modelled from the spec: the `Pairs` sibling iterator state from
pairs.rs (not under src/) — shared log, shared input and the half-open
token index range `[start, stop)` it iterates over. Construction
(`pairs::new`) records exactly the given range. -/
structure Pairs (R : Type) where
  queue : SharedQueue R
  input : SharedStr
  start : Nat
  stop : Nat
  deriving DecidableEq

/-- Modelled from the spec: the `Tokens` flat iterator state from
tokens.rs (not under src/) — it yields every raw entry with token index
in the half-open range `[start, stop)`. Construction (`tokens::new`)
records exactly the given range. -/
structure Tokens (R : Type) where
  queue : SharedQueue R
  input : SharedStr
  start : Nat
  stop : Nat
  deriving DecidableEq

/-- The flat `Tokens` iterator over `[start, stop)` yields the entry at
token index `i`. -/
def Tokens.inRange {R : Type} (t : Tokens R) (i : Nat) : Prop :=
  t.start ≤ i ∧ i < t.stop

/-- `Pair::into_inner` from pair.rs: the sibling iterator over the range
`(start, matching end)`, i.e. `[start + 1, pair())`. -/
def Pair.into_inner {R : Type} (p : Pair R) : Option (Pairs R) :=
  (p.pair).map fun e => ⟨p.queue, p.input, p.start + 1, e⟩

/-- `Pair::tokens` from pair.rs: the flat iterator over
`[start, pair() + 1)`. -/
def Pair.tokens {R : Type} (p : Pair R) : Option (Tokens R) :=
  (p.pair).map fun e => ⟨p.queue, p.input, p.start, e + 1⟩

/-- `Rc::ptr_eq` on the shared event log: identity of allocation. -/
def SharedQueue.ptrEq {R : Type} (a b : SharedQueue R) : Bool :=
  a.id == b.id

/-- `Arc::ptr_eq` on the shared input text: identity of allocation. -/
def SharedStr.ptrEq (a b : SharedStr) : Bool :=
  a.id == b.id

/-- `impl PartialEq for Pair` from pair.rs: log identity, input identity
and equal `start` index. -/
def Pair.eqb {R : Type} (p q : Pair R) : Bool :=
  SharedQueue.ptrEq p.queue q.queue && SharedStr.ptrEq p.input q.input &&
    p.start == q.start

/-- `impl Hash for Pair` from pair.rs: the data fed to the hasher — the
raw pointer of the log (its allocation identity), the raw pointer of the
input text, and the `start` index. -/
def Pair.hashData {R : Type} (p : Pair R) : Nat × Nat × Nat :=
  (p.queue.id, p.input.id, p.start)

/-- Modelled from the spec: `Pairs::peek` from pairs.rs (not under src/)
yields a value exactly when the range is not exhausted, i.e. when the
lower bound is below the upper bound. -/
def Pairs.peekIsSome {R : Type} (ps : Pairs R) : Bool :=
  decide (ps.start < ps.stop)

/-- A serialized JSON value as produced by `impl Serialize for Pair`:
a two-element position array, a string, or the nested serialization of a
`Pairs` sibling sequence (produced by pairs.rs, opaque here). -/
inductive SerValue (R : Type) where
  | posArr (s e : Nat)
  | str (t : List Char)
  | pairsObj (ps : Pairs R)
  deriving DecidableEq

/-- `impl Serialize for Pair` from pair.rs (`pretty-print` feature): the
ordered field list of the emitted top-level object. `showRule` models the
debug formatting `format!("{:?}", rule)` of the rule identifier. -/
def Pair.serializeFields {R : Type} (showRule : R → List Char) (p : Pair R) :
    Option (List (List Char × SerValue R)) := do
  let e ← p.pair
  let s ← p.pos p.start
  let en ← p.pos e
  let rule ← p.as_rule
  let inner ← p.into_inner
  let innerVal ← if inner.peekIsSome then some (SerValue.pairsObj inner)
    else (p.as_str).map SerValue.str
  pure [(("pos").data, SerValue.posArr s en),
        (("rule").data, SerValue.str (showRule rule)),
        (("inner").data, innerVal)]

/-- C3: two `Pair`s are equal iff they share the same event log by
identity, the same input text by identity, and the same start index;
equal pairs feed identical data to the hasher; and pairs from two
independent parse runs (distinct log allocations) are not equal even with
identical log contents, input contents and start index. -/
theorem pair_identity_equality (R : Type) :
    (∀ p q : Pair R, Pair.eqb p q = true ↔
      (p.queue.id = q.queue.id ∧ p.input.id = q.input.id ∧ p.start = q.start))
    ∧ (∀ p q : Pair R, Pair.eqb p q = true → Pair.hashData p = Pair.hashData q)
    ∧ (∀ p q : Pair R, p.queue.val = q.queue.val → p.input.val = q.input.val →
        p.start = q.start → p.queue.id ≠ q.queue.id → Pair.eqb p q = false) := by
  refine ⟨?_, ?_, ?_⟩
  · intro p q
    simp only [Pair.eqb, SharedQueue.ptrEq, SharedStr.ptrEq, Bool.and_eq_true,
      beq_iff_eq]
    constructor
    · rintro ⟨⟨h1, h2⟩, h3⟩; exact ⟨h1, h2, h3⟩
    · rintro ⟨h1, h2, h3⟩; exact ⟨⟨h1, h2⟩, h3⟩
  · intro p q h
    simp only [Pair.eqb, SharedQueue.ptrEq, SharedStr.ptrEq, Bool.and_eq_true,
      beq_iff_eq] at h
    simp only [Pair.hashData, h.1.1, h.1.2, h.2]
  · intro p q _ _ _ hid
    have hq : (p.queue.id == q.queue.id) = false := beq_eq_false_iff_ne.mpr hid
    simp [Pair.eqb, SharedQueue.ptrEq, hq]

/-- Closed-form instance of `pair_identity_equality`: two pairs with
identical contents but distinct log allocations are not equal. -/
theorem pair_identity_equality_witness :
    Pair.eqb (⟨⟨0, []⟩, ⟨0, []⟩, 0⟩ : Pair Nat) ⟨⟨1, []⟩, ⟨0, []⟩, 0⟩ = false :=
  (pair_identity_equality Nat).2.2 ⟨⟨0, []⟩, ⟨0, []⟩, 0⟩ ⟨⟨1, []⟩, ⟨0, []⟩, 0⟩
    rfl rfl rfl (by decide)

/-- C4: for a well-formed pair (start resolves to a `Start` whose
matching index resolves to an `End`), `as_span().as_str()` equals
`as_str()`, both being the slice of the input text between the byte
offsets of the `Start` entry and its matching `End` entry. -/
theorem pair_as_span_as_str (R : Type) (p : Pair R) (e ps pe : Nat) (r : R)
    (h1 : p.queue.val[p.start]? = some (.Start e ps))
    (h2 : p.queue.val[e]? = some (.End r pe)) :
    (p.as_span).map Span.as_str = some (sliceBytes p.input.val ps pe)
    ∧ p.as_str = some (sliceBytes p.input.val ps pe) := by
  have hp : p.pair = some e := by simp [Pair.pair, h1]
  have hs : p.pos p.start = some ps := by simp [Pair.pos, h1, QueueableToken.inputPos]
  have hen : p.pos e = some pe := by simp [Pair.pos, h2, QueueableToken.inputPos]
  constructor
  · simp [Pair.as_span, hp, hs, hen, Span.as_str]
  · simp [Pair.as_str, hp, hs, hen]

/-- Closed-form instance of `pair_as_span_as_str` at the root pair of the
concrete log for rule `0` matching `ab` with nested rule `1` matching
`b`. -/
theorem pair_as_span_as_str_witness :
    (Pair.as_span (⟨⟨0, [.Start 3 0, .Start 2 1, .End 1 2, .End 0 2]⟩,
        ⟨0, ("ab").data⟩, 0⟩ : Pair Nat)).map Span.as_str =
      some (sliceBytes (("ab").data) 0 2)
    ∧ Pair.as_str (⟨⟨0, [.Start 3 0, .Start 2 1, .End 1 2, .End 0 2]⟩,
        ⟨0, ("ab").data⟩, 0⟩ : Pair Nat) = some (sliceBytes (("ab").data) 0 2) :=
  pair_as_span_as_str Nat ⟨⟨0, [.Start 3 0, .Start 2 1, .End 1 2, .End 0 2]⟩,
    ⟨0, ("ab").data⟩, 0⟩ 3 0 2 0 (by rfl) (by rfl)

/-- C5: for a well-formed pair with start index `s` and matching end
index `e`, `into_inner` yields the sibling iterator over exactly the
index range `[s + 1, e)`. -/
theorem pair_into_inner_range (R : Type) (p : Pair R) (e ps pe : Nat) (r : R)
    (h1 : p.queue.val[p.start]? = some (.Start e ps))
    (_h2 : p.queue.val[e]? = some (.End r pe)) :
    p.into_inner = some ⟨p.queue, p.input, p.start + 1, e⟩ := by
  have hp : p.pair = some e := by simp [Pair.pair, h1]
  simp [Pair.into_inner, hp]

/-- Closed-form instance of `pair_into_inner_range` at the root pair of
the concrete `ab` log: the inner range is `[1, 3)`. -/
theorem pair_into_inner_range_witness :
    Pair.into_inner (⟨⟨0, [.Start 3 0, .Start 2 1, .End 1 2, .End 0 2]⟩,
        ⟨0, ("ab").data⟩, 0⟩ : Pair Nat) =
      some ⟨⟨0, [.Start 3 0, .Start 2 1, .End 1 2, .End 0 2]⟩, ⟨0, ("ab").data⟩, 1, 3⟩ :=
  pair_into_inner_range Nat ⟨⟨0, [.Start 3 0, .Start 2 1, .End 1 2, .End 0 2]⟩,
    ⟨0, ("ab").data⟩, 0⟩ 3 0 2 0 (by rfl) (by rfl)

/-- C6: for a well-formed pair with start index `s` and matching end
index `e`, `tokens` yields the flat iterator over exactly the index range
`[s, e + 1)`, which contains both the `Start` index and the matching
`End` index. -/
theorem pair_tokens_range (R : Type) (p : Pair R) (e ps pe : Nat) (r : R)
    (h1 : p.queue.val[p.start]? = some (.Start e ps))
    (_h2 : p.queue.val[e]? = some (.End r pe))
    (hse : p.start ≤ e) :
    p.tokens = some ⟨p.queue, p.input, p.start, e + 1⟩
    ∧ Tokens.inRange ⟨p.queue, p.input, p.start, e + 1⟩ p.start
    ∧ Tokens.inRange ⟨p.queue, p.input, p.start, e + 1⟩ e := by
  have hp : p.pair = some e := by simp [Pair.pair, h1]
  refine ⟨by simp [Pair.tokens, hp], ?_, ?_⟩
  · simp only [Tokens.inRange]
    omega
  · simp only [Tokens.inRange]
    exact ⟨hse, by omega⟩

/-- Closed-form instance of `pair_tokens_range` at the root pair of the
concrete `ab` log: the flat range is `[0, 4)` and contains indices `0`
and `3`. -/
theorem pair_tokens_range_witness :
    Pair.tokens (⟨⟨0, [.Start 3 0, .Start 2 1, .End 1 2, .End 0 2]⟩,
        ⟨0, ("ab").data⟩, 0⟩ : Pair Nat) =
      some ⟨⟨0, [.Start 3 0, .Start 2 1, .End 1 2, .End 0 2]⟩, ⟨0, ("ab").data⟩, 0, 4⟩
    ∧ Tokens.inRange (⟨⟨0, [.Start 3 0, .Start 2 1, .End 1 2, .End 0 2]⟩,
        ⟨0, ("ab").data⟩, 0, 4⟩ : Tokens Nat) 0
    ∧ Tokens.inRange (⟨⟨0, [.Start 3 0, .Start 2 1, .End 1 2, .End 0 2]⟩,
        ⟨0, ("ab").data⟩, 0, 4⟩ : Tokens Nat) 3 :=
  pair_tokens_range Nat ⟨⟨0, [.Start 3 0, .Start 2 1, .End 1 2, .End 0 2]⟩,
    ⟨0, ("ab").data⟩, 0⟩ 3 0 2 0 (by rfl) (by rfl) (by decide)

/-- C9: when the start index resolves to a `Start` entry, `as_rule`
returns the rule stored in the entry at the matching index whenever that
entry is an `End` (so the fatal `unreachable!` branch is not taken), and
the fatal branch (modelled by `none`) is taken exactly when the entry at
the matching index is not an `End`. -/
theorem pair_as_rule_invariant (R : Type) (p : Pair R) (e ps : Nat)
    (h1 : p.queue.val[p.start]? = some (.Start e ps)) :
    (∀ r pe, p.queue.val[e]? = some (.End r pe) → p.as_rule = some r)
    ∧ (p.as_rule = none ↔ ∀ r pe, p.queue.val[e]? ≠ some (.End r pe)) := by
  have hp : p.pair = some e := by simp [Pair.pair, h1]
  constructor
  · intro r pe h2
    simp [Pair.as_rule, hp, h2]
  · constructor
    · intro hn r pe h2
      simp [Pair.as_rule, hp, h2] at hn
    · intro hall
      rcases hx : p.queue.val[e]? with _ | tok
      · simp [Pair.as_rule, hp, hx]
      · cases tok with
        | Start a b => simp [Pair.as_rule, hp, hx]
        | End r pe => exact absurd hx (hall r pe)

/-- Closed-form instance of `pair_as_rule_invariant` at the root pair of
the concrete `ab` log: the rule of the `End` entry at index `3` is
returned and no fatal branch is taken. -/
theorem pair_as_rule_invariant_witness :
    Pair.as_rule (⟨⟨0, [.Start 3 0, .Start 2 1, .End 1 2, .End 0 2]⟩,
        ⟨0, ("ab").data⟩, 0⟩ : Pair Nat) = some 0 :=
  (pair_as_rule_invariant Nat ⟨⟨0, [.Start 3 0, .Start 2 1, .End 1 2, .End 0 2]⟩,
    ⟨0, ("ab").data⟩, 0⟩ 3 0 (by rfl)).1 0 2 (by rfl)

/-- C8: for a well-formed pair, the serialization is a top-level object
with exactly the fields `pos` (two-element array of the start and end
byte offsets), `rule` (debug-formatted rule id) and `inner`, in that
order; `inner` is the raw matched substring when the pair has no
children (inner range empty) and the serialized child-sibling sequence
otherwise. -/
theorem pair_serialize_fields (R : Type) (showRule : R → List Char) (p : Pair R)
    (e ps pe : Nat) (r : R)
    (h1 : p.queue.val[p.start]? = some (.Start e ps))
    (h2 : p.queue.val[e]? = some (.End r pe)) :
    p.serializeFields showRule =
      some [(("pos").data, SerValue.posArr ps pe),
            (("rule").data, SerValue.str (showRule r)),
            (("inner").data,
              if p.start + 1 < e then
                SerValue.pairsObj ⟨p.queue, p.input, p.start + 1, e⟩
              else SerValue.str (sliceBytes p.input.val ps pe))] := by
  have hp : p.pair = some e := by simp [Pair.pair, h1]
  have hs : p.pos p.start = some ps := by simp [Pair.pos, h1, QueueableToken.inputPos]
  have hen : p.pos e = some pe := by simp [Pair.pos, h2, QueueableToken.inputPos]
  have hrule : p.as_rule = some r := by simp [Pair.as_rule, hp, h2]
  have hinner : p.into_inner = some ⟨p.queue, p.input, p.start + 1, e⟩ := by
    simp [Pair.into_inner, hp]
  by_cases hlt : p.start + 1 < e
  · simp [Pair.serializeFields, hp, hs, hen, hrule, hinner, Pairs.peekIsSome, hlt]
  · simp [Pair.serializeFields, hp, hs, hen, hrule, hinner, Pairs.peekIsSome, hlt,
      Pair.as_str]

/-- Closed-form instance of `pair_serialize_fields` at the root pair of
the concrete `ab` log: the inner range `[1, 3)` is nonempty, so `inner`
is the serialized child sequence. -/
theorem pair_serialize_fields_witness :
    Pair.serializeFields (fun _ => ("r").data)
      (⟨⟨0, [.Start 3 0, .Start 2 1, .End 1 2, .End 0 2]⟩,
        ⟨0, ("ab").data⟩, 0⟩ : Pair Nat) =
      some [(("pos").data, SerValue.posArr 0 2),
            (("rule").data, SerValue.str (("r").data)),
            (("inner").data,
              if 0 + 1 < 3 then
                SerValue.pairsObj ⟨⟨0, [.Start 3 0, .Start 2 1, .End 1 2, .End 0 2]⟩,
                  ⟨0, ("ab").data⟩, 0 + 1, 3⟩
              else SerValue.str (sliceBytes (("ab").data) 0 2))] :=
  pair_serialize_fields Nat (fun _ => ("r").data)
    ⟨⟨0, [.Start 3 0, .Start 2 1, .End 1 2, .End 0 2]⟩, ⟨0, ("ab").data⟩, 0⟩
    3 0 2 0 (by rfl) (by rfl)
